import Mathlib

/-! Verification of the Shibboleth remote-user middleware
(shibboleth/middleware.py).  The middleware's pure fragments
(parse_attributes, parse_group_attributes) are embedded as Lean functions;
the stateful fragments (process_request, update_user_groups) are embedded
as functions over explicit request / session / database state.  External
collaborators (urllib.parse.unquote, the authentication backend,
clean_username of the Django base class, auth.login's session effect) are
abstract function parameters carried in the configuration / environment
records. -/

/-- Association-list lookup, modelling Python dict lookup
(meta.get(k) returning None when the key is missing): the value of the
first pair whose key is k. -/
def alistGet {β : Type} (d : List (String × β)) (k : String) : Option β :=
  match d with
  | [] => none
  | (k', v) :: rest => if k' = k then some v else alistGet rest k

/-- Association-list write, modelling Python dict assignment d[k] = v:
replace the value in place when the key is present, append otherwise. -/
def alistSet {β : Type} (d : List (String × β)) (k : String) (v : β) :
    List (String × β) :=
  match d with
  | [] => [(k, v)]
  | (k', v') :: rest =>
    if k' = k then (k, v) :: rest else (k', v') :: alistSet rest k v

/-- Association list with every pair of key k removed (used to compare a
header map against the same map with one header absent). -/
def alistErase {β : Type} (d : List (String × β)) (k : String) :
    List (String × β) :=
  match d with
  | [] => []
  | (k', v) :: rest =>
    if k' = k then alistErase rest k else (k', v) :: alistErase rest k

/-- Entry of settings.ATTRIBUTE_MAP: a header name mapped to
(required, internal name) or (required, internal name, processor); the
two-element form of the source is processor = none (the identity). -/
structure AttrEntry where
  header : String
  required : Bool
  name : String
  processor : Option (String → String)

/-- Transformer application: the configured processor, or the identity
lambda the source substitutes when the tuple has two elements. -/
def AttrEntry.apply (e : AttrEntry) (v : String) : String :=
  (e.processor.getD id) v

/-- Process-wide configuration (the shibboleth settings module).  The
field unquote models urllib.parse.unquote, an external library function,
kept abstract. -/
structure Settings where
  ATTRIBUTE_MAP : List AttrEntry
  UNQUOTE_ATTRIBUTES : Bool
  GROUP_ATTRIBUTES : List String
  GROUP_DELIMITERS : List String
  unquote : String → String

/-- Optional percent-decoding: unquote is applied exactly when
settings.UNQUOTE_ATTRIBUTES holds, as in the source. -/
def Settings.decode (s : Settings) (v : String) : String :=
  if s.UNQUOTE_ATTRIBUTES then s.unquote v else v

/-- Request headers (request.META): a finite map from header name to
string value. -/
abbrev Meta : Type := List (String × String)

/-- Parsed Shibboleth attributes (shib_attrs in the source): internal
attribute name to transformed value. -/
abbrev Dict : Type := List (String × String)

/-- Loop body of parse_attributes: one pass over the ATTRIBUTE_MAP
entries, carrying the partial map and the error flag.  Mirrors
value = meta.get(header, None); if value: (store, after optional
unquote and the processor) elif required: error = True. -/
def parseAttrsGo (s : Settings) (meta : Meta) :
    List AttrEntry → Dict → Bool → Dict × Bool
  | [], shib_attrs, error => (shib_attrs, error)
  | e :: rest, shib_attrs, error =>
    match alistGet meta e.header with
    | some v =>
      if v = "" then parseAttrsGo s meta rest shib_attrs (error || e.required)
      else
        parseAttrsGo s meta rest
          (alistSet shib_attrs e.name (e.apply (s.decode v))) error
    | none => parseAttrsGo s meta rest shib_attrs (error || e.required)

/-- ShibbolethRemoteUserMiddleware.parse_attributes: build the internal
attribute map from the headers and report whether a required element was
missing. -/
def parse_attributes (s : Settings) (meta : Meta) : Dict × Bool :=
  parseAttrsGo s meta s.ATTRIBUTE_MAP [] false

/-- Truthy view of a header lookup: the value when present and non-empty,
none otherwise — exactly the distinction Python's if value: draws. -/
def truthyGet (meta : Meta) (h : String) : Option String :=
  match alistGet meta h with
  | some v => if v = "" then none else some v
  | none => none

/-- Boolean test an entry contributes to the error flag: it is required
and its header is absent or empty. -/
def requiredMissing (meta : Meta) (e : AttrEntry) : Bool :=
  e.required && (truthyGet meta e.header).isNone

/-- Value the attribute map ends up holding under key k: the transformed
value of the last entry named k whose header is present and non-empty
(later entries overwrite earlier ones in the dict). -/
def lastVal (s : Settings) (meta : Meta) : List AttrEntry → String → Option String
  | [], _ => none
  | e :: rest, k =>
    match lastVal s meta rest k with
    | some w => some w
    | none =>
      if e.name = k then
        match truthyGet meta e.header with
        | some v => some (e.apply (s.decode v))
        | none => none
      else none

theorem alistGet_alistSet {β : Type} (d : List (String × β)) (k k' : String)
    (v : β) :
    alistGet (alistSet d k v) k' = if k' = k then some v else alistGet d k' := by
  induction d with
  | nil =>
    by_cases h : k' = k
    · subst h; simp [alistSet, alistGet]
    · simp [alistSet, alistGet, h, Ne.symm h]
  | cons p rest ih =>
    obtain ⟨k₀, v₀⟩ := p
    by_cases h0 : k₀ = k
    · subst h0
      by_cases h : k' = k₀
      · subst h; simp [alistSet, alistGet]
      · simp [alistSet, alistGet, h, Ne.symm h]
    · by_cases h : k' = k₀
      · subst h
        simp [alistSet, alistGet, h0, Ne.symm h0, ih]
      · simp [alistSet, alistGet, h0, h, Ne.symm h, ih]

theorem alistGet_alistErase {β : Type} (d : List (String × β)) (k k' : String) :
    alistGet (alistErase d k) k' = if k' = k then none else alistGet d k' := by
  induction d with
  | nil => simp [alistErase, alistGet]
  | cons p rest ih =>
    obtain ⟨k₀, v₀⟩ := p
    by_cases h0 : k₀ = k
    · subst h0
      by_cases h : k' = k₀
      · subst h; simp [alistErase, alistGet, ih]
      · simp [alistErase, alistGet, h, Ne.symm h, ih]
    · by_cases h : k' = k₀
      · subst h
        simp [alistErase, alistGet, h0, Ne.symm h0, ih]
      · simp [alistErase, alistGet, h0, h, Ne.symm h, ih]

/-- Step form of the parsing loop: one entry is consumed according to the
truthy view of its header. -/
theorem parseAttrsGo_cons (s : Settings) (meta : Meta) (e : AttrEntry)
    (rest : List AttrEntry) (shib_attrs : Dict) (error : Bool) :
    parseAttrsGo s meta (e :: rest) shib_attrs error =
      match truthyGet meta e.header with
      | some v =>
        parseAttrsGo s meta rest
          (alistSet shib_attrs e.name (e.apply (s.decode v))) error
      | none => parseAttrsGo s meta rest shib_attrs (error || e.required) := by
  simp only [parseAttrsGo, truthyGet]
  cases h : alistGet meta e.header with
  | none => rfl
  | some v =>
    by_cases hv : v = ""
    · subst hv; simp
    · simp [hv]

/-- Error flag of the loop: the incoming flag joined with one bit per
remaining entry that is required and absent-or-empty; in particular the
loop never short-circuits on the flag. -/
theorem parseAttrsGo_error (s : Settings) (meta : Meta) :
    ∀ (cfg : List AttrEntry) (shib_attrs : Dict) (error : Bool),
      (parseAttrsGo s meta cfg shib_attrs error).2 =
        (error || cfg.any (requiredMissing meta)) := by
  intro cfg
  induction cfg with
  | nil => intro shib_attrs error; simp [parseAttrsGo]
  | cons e rest ih =>
    intro shib_attrs error
    rw [parseAttrsGo_cons]
    cases h : truthyGet meta e.header with
    | none =>
      rw [ih]
      simp [requiredMissing, h, Bool.or_assoc]
    | some v =>
      rw [ih]
      simp [requiredMissing, h]

/-- Map contents of the loop: the final value under a key is the last
write for that key in the remaining entries, falling back to the incoming
partial map. -/
theorem parseAttrsGo_fst (s : Settings) (meta : Meta) :
    ∀ (cfg : List AttrEntry) (shib_attrs : Dict) (error : Bool) (k : String),
      alistGet (parseAttrsGo s meta cfg shib_attrs error).1 k =
        match lastVal s meta cfg k with
        | some w => some w
        | none => alistGet shib_attrs k := by
  intro cfg
  induction cfg with
  | nil => intro shib_attrs error k; simp [parseAttrsGo, lastVal]
  | cons e rest ih =>
    intro shib_attrs error k
    rw [parseAttrsGo_cons]
    cases h : truthyGet meta e.header with
    | none =>
      rw [ih]
      cases hl : lastVal s meta rest k with
      | some w => simp [lastVal, hl]
      | none =>
        by_cases he : e.name = k
        · simp [lastVal, hl, he, h]
        · simp [lastVal, hl, he]
    | some v =>
      rw [ih]
      cases hl : lastVal s meta rest k with
      | some w => simp [lastVal, hl]
      | none =>
        by_cases he : e.name = k
        · subst he
          simp [lastVal, hl, h, alistGet_alistSet]
        · simp [lastVal, hl, he, h, alistGet_alistSet, Ne.symm he]

theorem lastVal_spec (s : Settings) (meta : Meta) :
    ∀ (cfg : List AttrEntry) (k : String) (w : String),
      lastVal s meta cfg k = some w →
        ∃ e, e ∈ cfg ∧ e.name = k ∧
          ∃ v, truthyGet meta e.header = some v ∧ w = e.apply (s.decode v) := by
  intro cfg
  induction cfg with
  | nil => intro k w h; simp [lastVal] at h
  | cons e rest ih =>
    intro k w h
    simp only [lastVal] at h
    cases hl : lastVal s meta rest k with
    | some w' =>
      rw [hl] at h
      simp at h
      obtain ⟨e', he', hn, v, hv, hw⟩ := ih k w' hl
      exact ⟨e', List.mem_cons_of_mem _ he', hn, v, hv, h ▸ hw⟩
    | none =>
      rw [hl] at h
      by_cases he : e.name = k
      · rw [if_pos he] at h
        cases hv : truthyGet meta e.header with
        | none => rw [hv] at h; simp at h
        | some v =>
          rw [hv] at h
          simp at h
          exact ⟨e, List.mem_cons_self _ _, he, v, hv, h.symm⟩
      · rw [if_neg he] at h; simp at h

theorem lastVal_isSome (s : Settings) (meta : Meta) :
    ∀ (cfg : List AttrEntry) (k : String) (e : AttrEntry),
      e ∈ cfg → e.name = k → (truthyGet meta e.header).isSome →
        (lastVal s meta cfg k).isSome := by
  intro cfg
  induction cfg with
  | nil => intro k e he; simp at he
  | cons e₀ rest ih =>
    intro k e he hn hv
    rcases List.mem_cons.mp he with h | h
    · subst h
      simp only [lastVal]
      cases hl : lastVal s meta rest k with
      | some w => simp
      | none =>
        rw [if_pos hn]
        cases hv' : truthyGet meta e.header with
        | none => rw [hv'] at hv; simp at hv
        | some v => simp
    · have := ih k e h hn hv
      simp only [lastVal]
      cases hl : lastVal s meta rest k with
      | some w => simp
      | none => rw [hl] at this; simp at this

/-- Leftmost alternative of the delimiter alternation that matches at the
start of the remaining characters.  Models where the single regex
re.split("|".join(GROUP_DELIMITERS), value) matches at a position:
alternatives are tried in configuration order; delimiters are modelled as
literal non-empty strings (an empty pattern never matches here). -/
def firstDelim (delims : List (List Char)) (r : List Char) : Option (List Char) :=
  delims.find? (fun d => !d.isEmpty && d.isPrefixOf r)

/-- Single left-to-right splitting pass of re.split on the delimiter
alternation: scan the characters, and at each position either split at
the leftmost-matching delimiter or keep the character in the current
token.  The fuel argument (instantiated with the string length, an upper
bound on the number of steps) keeps the recursion structural. -/
def splitAltGo (delims : List (List Char)) : Nat → List Char → List Char → List (List Char)
  | 0, acc, r => [acc ++ r]
  | _ + 1, acc, [] => [acc]
  | fuel + 1, acc, c :: cs =>
    match firstDelim delims (c :: cs) with
    | some d => acc :: splitAltGo delims fuel [] ((c :: cs).drop d.length)
    | none => splitAltGo delims fuel (acc ++ [c]) cs

/-- Split a character list on the alternation of a delimiter set in one
pass (the semantics of re.split with the joined pattern, for literal
delimiters). -/
def splitAlt (delims : List (List Char)) (chars : List Char) : List (List Char) :=
  splitAltGo delims chars.length [] chars

/-- String form of the single-pass split. -/
def strSplitAlt (delims : List String) (v : String) : List String :=
  (splitAlt (delims.map String.data) v.data).map (fun l => String.mk l)

/-- Loop of parse_group_attributes over settings.GROUP_ATTRIBUTES:
fetch each group header (default empty string), optionally
percent-decode, split on the delimiter alternation, drop falsy (empty)
tokens, and append the survivors. -/
def parseGroupsGo (s : Settings) (meta : Meta) : List String → List String
  | [] => []
  | attr :: rest =>
    (strSplitAlt s.GROUP_DELIMITERS (s.decode ((alistGet meta attr).getD ""))).filter
        (fun t => t != "") ++
      parseGroupsGo s meta rest

/-- ShibbolethRemoteUserMiddleware.parse_group_attributes: the
accumulated group-name list across all configured group headers. -/
def parse_group_attributes (s : Settings) (meta : Meta) : List String :=
  parseGroupsGo s meta s.GROUP_ATTRIBUTES

/-- Interleaving of split parts with the delimiters found between them;
used to state that splitting loses nothing but the matched delimiters. -/
def interleave : List (List Char) → List (List Char) → List Char
  | [], _ => []
  | p :: _, [] => p
  | p :: ps, d :: ds => p ++ d ++ interleave ps ds

/-- User / group persistence state as far as the middleware touches it:
the set of existing group names (Group.objects) and the user-group
membership relation (pairs of group name and username). -/
structure DB where
  groups : List String
  membership : List (String × String)
deriving DecidableEq

/-- Second loop of update_user_groups: for every name in the parsed group
list, get_or_create the group and add the user to it (both
set-semantics: no duplicates are created). -/
def addGroupsGo (username : String) : List String → DB → DB
  | [], db => db
  | g :: rest, db =>
    addGroupsGo username rest
      { groups := if g ∈ db.groups then db.groups else db.groups ++ [g]
        membership :=
          if (g, username) ∈ db.membership then db.membership
          else db.membership ++ [(g, username)] }

/-- ShibbolethRemoteUserMiddleware.update_user_groups, after the group
list has been parsed: remove the user from every group not named in the
list, then add the user to every named group, creating it if missing. -/
def update_user_groups (groups : List String) (username : String) (db : DB) : DB :=
  let pruned : DB :=
    { db with
      membership :=
        db.membership.filter (fun p => !decide (p.2 = username ∧ p.1 ∉ groups)) }
  addGroupsGo username groups pruned

/-- Django user as far as the middleware reads it: request.user with its
username and is_authenticated flag (an anonymous user has
is_authenticated = false). -/
structure User where
  username : String
  is_authenticated : Bool
deriving DecidableEq

/-- Per-request state the middleware reads and mutates: the header map,
the current-user slot (none models a request object without the user
attribute, i.e. missing AuthenticationMiddleware) and the session store,
whose only key this component writes with a parsed map is "shib". -/
structure Request where
  META : Meta
  user : Option User
  session : List (String × Dict)
deriving DecidableEq

/-- Environment of external collaborators: the settings module, the
configured remote-user header name (self.header), the framework's
clean_username hook, the pluggable authentication backend
(auth.authenticate) and the session effect of auth.login. -/
structure Env where
  settings : Settings
  header : String
  clean_username : String → String
  authenticate : String → Dict → Option User
  loginSession : List (String × Dict) → User → List (String × Dict)

/-- Outcome of one process_request call: the configuration error, a
normal return carrying the final request and database state, or the
ShibbolethValidationError raised with the partial attribute map
(carrying the state as it stands when the error is raised). -/
inductive Result where
  | improperlyConfigured : Result
  | ok : Request → DB → Result
  | validationError : Dict → Request → DB → Result
deriving DecidableEq

/-- ShibbolethRemoteUserMiddleware.process_request over explicit state:
precondition check on request.user, remote-user header extraction with
optional percent-decoding, empty-value and fast-path returns, attribute
parsing with the unconditional session write under "shib", validation
error on a missing required element, delegated authentication, login and
optional group synchronisation (make_profile and setup_session are no-op
stubs in the source and have no state effect). -/
def process_request (env : Env) (req : Request) (db : DB) : Result :=
  match req.user with
  | none => Result.improperlyConfigured
  | some current =>
    match alistGet req.META env.header with
    | none => Result.ok req db
    | some raw =>
      let username := env.settings.decode raw
      if username = "" then Result.ok req db
      else if current.is_authenticated = true ∧
          current.username = env.clean_username username then
        Result.ok req db
      else
        let pe := parse_attributes env.settings req.META
        let req1 : Request := { req with session := alistSet req.session "shib" pe.1 }
        if pe.2 = true then Result.validationError pe.1 req1 db
        else
          match env.authenticate username pe.1 with
          | none => Result.ok req1 db
          | some user =>
            let req2 : Request := { req1 with user := some user }
            let req3 : Request :=
              { req2 with session := env.loginSession req2.session user }
            let db1 : DB :=
              if env.settings.GROUP_ATTRIBUTES = [] then db
              else
                update_user_groups (parse_group_attributes env.settings req2.META)
                  user.username db
            Result.ok req3 db1

theorem addGroupsGo_membership (username : String) :
    ∀ (gs : List String) (db : DB) (p : String × String),
      p ∈ (addGroupsGo username gs db).membership ↔
        p ∈ db.membership ∨ (p.2 = username ∧ p.1 ∈ gs) := by
  intro gs
  induction gs with
  | nil => intro db p; simp [addGroupsGo]
  | cons g rest ih =>
    intro db p
    obtain ⟨a, b⟩ := p
    simp only [addGroupsGo]
    rw [ih]
    have hbase :
        (a, b) ∈
            (if (g, username) ∈ db.membership then db.membership
              else db.membership ++ [(g, username)]) ↔
          (a, b) ∈ db.membership ∨ (a = g ∧ b = username) := by
      by_cases hm : (g, username) ∈ db.membership
      · rw [if_pos hm]
        constructor
        · exact Or.inl
        · rintro (h | ⟨h1, h2⟩)
          · exact h
          · subst h1; subst h2; exact hm
      · rw [if_neg hm]
        simp [List.mem_append, Prod.ext_iff]
    rw [hbase]
    simp only [List.mem_cons]
    tauto

theorem addGroupsGo_groups (username : String) :
    ∀ (gs : List String) (db : DB) (g' : String),
      g' ∈ (addGroupsGo username gs db).groups ↔
        g' ∈ db.groups ∨ g' ∈ gs := by
  intro gs
  induction gs with
  | nil => intro db g'; simp [addGroupsGo]
  | cons g rest ih =>
    intro db g'
    simp only [addGroupsGo]
    rw [ih]
    have hbase :
        g' ∈ (if g ∈ db.groups then db.groups else db.groups ++ [g]) ↔
          g' ∈ db.groups ∨ g' = g := by
      by_cases hm : g ∈ db.groups
      · rw [if_pos hm]
        constructor
        · exact Or.inl
        · rintro (h | h)
          · exact h
          · subst h; exact hm
      · rw [if_neg hm]
        simp [List.mem_append]
    rw [hbase]
    simp only [List.mem_cons]
    tauto

theorem addGroupsGo_noop (username : String) :
    ∀ (gs : List String) (db : DB),
      (∀ g ∈ gs, g ∈ db.groups ∧ (g, username) ∈ db.membership) →
        addGroupsGo username gs db = db := by
  intro gs
  induction gs with
  | nil => intro db _; rfl
  | cons g rest ih =>
    intro db h
    have hg := h g (List.mem_cons_self g rest)
    simp only [addGroupsGo, if_pos hg.1, if_pos hg.2]
    exact ih db (fun g' hg' => h g' (List.mem_cons_of_mem _ hg'))

/-- Membership after reconciliation: a pair survives the removal pass iff
its group is kept for this user, and the addition pass contributes
exactly the pairs of the new list with this user. -/
theorem update_user_groups_membership (groups : List String) (username : String)
    (db : DB) (p : String × String) :
    p ∈ (update_user_groups groups username db).membership ↔
      ((p ∈ db.membership ∧ (p.2 = username → p.1 ∈ groups)) ∨
        (p.2 = username ∧ p.1 ∈ groups)) := by
  simp only [update_user_groups]
  rw [addGroupsGo_membership]
  simp only [List.mem_filter, Bool.not_eq_true', decide_eq_false_iff_not, not_and,
    not_not]

/-- Group table after reconciliation: existing names plus the names of the
new list (get_or_create never deletes a group). -/
theorem update_user_groups_grouptable (groups : List String) (username : String)
    (db : DB) (g : String) :
    g ∈ (update_user_groups groups username db).groups ↔
      g ∈ db.groups ∨ g ∈ groups := by
  simp only [update_user_groups]
  rw [addGroupsGo_groups]

theorem parseAttrsGo_congr (s : Settings) (m₁ m₂ : Meta)
    (hm : ∀ hd, truthyGet m₁ hd = truthyGet m₂ hd) :
    ∀ (cfg : List AttrEntry) (shib_attrs : Dict) (error : Bool),
      parseAttrsGo s m₁ cfg shib_attrs error =
        parseAttrsGo s m₂ cfg shib_attrs error := by
  intro cfg
  induction cfg with
  | nil => intro shib_attrs error; simp [parseAttrsGo]
  | cons e rest ih =>
    intro shib_attrs error
    rw [parseAttrsGo_cons, parseAttrsGo_cons, hm e.header]
    cases truthyGet m₂ e.header with
    | none => exact ih _ _
    | some v => exact ih _ _

theorem isPrefixOf_append_drop :
    ∀ (d r : List Char), d.isPrefixOf r = true → d ++ r.drop d.length = r := by
  intro d
  induction d with
  | nil => intro r _; simp
  | cons a as ih =>
    intro r h
    cases r with
    | nil => simp [List.isPrefixOf] at h
    | cons b bs =>
      simp only [List.isPrefixOf, Bool.and_eq_true, beq_iff_eq] at h
      obtain ⟨hab, h'⟩ := h
      subst hab
      simp [List.drop_succ_cons, ih bs h']

theorem firstDelim_some (delims : List (List Char)) (r : List Char)
    (d : List Char) (h : firstDelim delims r = some d) :
    d ∈ delims ∧ d ≠ [] ∧ d.isPrefixOf r = true := by
  have h1 := List.find?_some h
  have h2 := List.mem_of_find?_eq_some h
  simp only [Bool.and_eq_true, Bool.not_eq_true', List.isEmpty_eq_false] at h1
  exact ⟨h2, h1.1, h1.2⟩

/-- Reconstruction property of the single-pass split: the parts it
returns, interleaved with some sequence of matched delimiters, give back
the input, and there is exactly one more part than matched delimiters.
So the split loses nothing but delimiter occurrences, and splits only at
configured delimiters. -/
theorem splitAltGo_reconstruct (delims : List (List Char)) :
    ∀ (fuel : Nat) (acc rest : List Char),
      ∃ seps : List (List Char),
        (splitAltGo delims fuel acc rest).length = seps.length + 1 ∧
        (∀ d ∈ seps, d ∈ delims ∧ d ≠ []) ∧
        interleave (splitAltGo delims fuel acc rest) seps = acc ++ rest := by
  intro fuel
  induction fuel with
  | zero =>
    intro acc rest
    exact ⟨[], by simp [splitAltGo], by simp, by simp [splitAltGo, interleave]⟩
  | succ n ih =>
    intro acc rest
    cases rest with
    | nil =>
      exact ⟨[], by simp [splitAltGo], by simp, by simp [splitAltGo, interleave]⟩
    | cons c cs =>
      cases hm : firstDelim delims (c :: cs) with
      | none =>
        obtain ⟨seps, hlen, hmem, hint⟩ := ih (acc ++ [c]) cs
        refine ⟨seps, ?_, hmem, ?_⟩
        · simp only [splitAltGo, hm]; exact hlen
        · simp only [splitAltGo, hm]
          rw [hint]
          simp
      | some d =>
        obtain ⟨hd, hdne, hdpre⟩ := firstDelim_some delims (c :: cs) d hm
        obtain ⟨seps, hlen, hmem, hint⟩ := ih [] ((c :: cs).drop d.length)
        refine ⟨d :: seps, ?_, ?_, ?_⟩
        · simp only [splitAltGo, hm, List.length_cons, hlen]
        · intro d' hd'
          rcases List.mem_cons.mp hd' with h | h
          · subst h; exact ⟨hd, hdne⟩
          · exact hmem d' h
        · simp only [splitAltGo, hm, interleave]
          rw [List.nil_append] at hint
          rw [hint, List.append_assoc]
          rw [isPrefixOf_append_drop d (c :: cs) hdpre]

/-- Accumulation across group headers: the group list is the
concatenation, in configuration order, of the per-header token lists
(split on the alternation, empty tokens dropped). -/
theorem parseGroupsGo_eq_join (s : Settings) (meta : Meta) :
    ∀ attrs : List String,
      parseGroupsGo s meta attrs =
        (attrs.map (fun attr =>
          (strSplitAlt s.GROUP_DELIMITERS
              (s.decode ((alistGet meta attr).getD ""))).filter
            (fun t => t != ""))).flatten := by
  intro attrs
  induction attrs with
  | nil => rfl
  | cons a rest ih =>
    simp only [parseGroupsGo, ih, List.map_cons, List.flatten_cons]

/-- Concrete configuration used for witnesses: the spec's example
attribute map (required mail, optional cn), no percent-decoding, one
group header split on a semicolon. -/
def wSettings : Settings :=
  { ATTRIBUTE_MAP :=
      [{ header := "HTTP_MAIL", required := true, name := "mail", processor := none },
       { header := "HTTP_CN", required := false, name := "cn", processor := none }],
    UNQUOTE_ATTRIBUTES := false,
    GROUP_ATTRIBUTES := ["HTTP_GROUPS"],
    GROUP_DELIMITERS := [";"],
    unquote := id }

/-- Header map in which the required header is present but empty. -/
def c1Meta : Meta := [("HTTP_MAIL", "")]

/-- Header map of the spec's group-splitting example. -/
def c8Meta : Meta := [("HTTP_GROUPS", "admin;staff;;editors")]

/-- Sanity scenario from the spec: required mail absent, optional cn
present gives the partial map and the error flag. -/
theorem parse_attributes_scenario :
    parse_attributes wSettings [("HTTP_CN", "Jane Doe")] =
      ([("cn", "Jane Doe")], true) := rfl

/-- C1 (amended): for every configuration and header map,
parse_attributes returns a map with an entry for every configured header
present with a non-empty value — the entry holds the transformed,
optionally percent-decoded value of a configured header of the same
internal name that is present and non-empty — and the error flag is true
iff some required header is absent or present with an empty value; no
entry is skipped because an earlier required header was missing. -/
theorem parse_attributes_total_spec (s : Settings) (meta : Meta) :
    (∀ e ∈ s.ATTRIBUTE_MAP, ∀ v, truthyGet meta e.header = some v →
      ∃ e', e' ∈ s.ATTRIBUTE_MAP ∧ e'.name = e.name ∧
        ∃ v', truthyGet meta e'.header = some v' ∧
          alistGet (parse_attributes s meta).1 e.name =
            some (e'.apply (s.decode v'))) ∧
    ((parse_attributes s meta).2 = true ↔
      ∃ e ∈ s.ATTRIBUTE_MAP, e.required = true ∧
        truthyGet meta e.header = none) := by
  constructor
  · intro e he v hv
    have hsome : (truthyGet meta e.header).isSome := by rw [hv]; rfl
    have hl := lastVal_isSome s meta s.ATTRIBUTE_MAP e.name e he rfl hsome
    obtain ⟨w, hw⟩ := Option.isSome_iff_exists.mp hl
    obtain ⟨e', he', hn, v', hv', hww⟩ :=
      lastVal_spec s meta s.ATTRIBUTE_MAP e.name w hw
    refine ⟨e', he', hn, v', hv', ?_⟩
    have hfst := parseAttrsGo_fst s meta s.ATTRIBUTE_MAP [] false e.name
    rw [hw] at hfst
    show alistGet (parseAttrsGo s meta s.ATTRIBUTE_MAP [] false).1 e.name =
      some (e'.apply (s.decode v'))
    rw [hfst, hww]
  · show (parseAttrsGo s meta s.ATTRIBUTE_MAP [] false).2 = true ↔ _
    rw [parseAttrsGo_error]
    simp [requiredMissing, List.any_eq_true, Option.isNone_iff_eq_none]

/-- C1 counterexample to the claim as stated: with the required header
HTTP_MAIL present in the header map (with value "") the error flag is
nevertheless true although no required configured header is absent, and
the present configured header has no entry in the returned map. -/
theorem parse_attributes_error_without_absent_header :
    (parse_attributes wSettings c1Meta).2 = true ∧
    wSettings.ATTRIBUTE_MAP.all
        (fun e => !e.required || !(alistGet c1Meta e.header).isNone) = true ∧
    (parse_attributes wSettings c1Meta).1 = [] :=
  ⟨rfl, rfl, rfl⟩

/-- C9: a configured header that is present with an empty value is
treated exactly like an absent one: parsing gives the same result as on
the header map with that header removed, and a required entry with that
header still sets the error flag. -/
theorem parse_attributes_empty_like_absent (s : Settings) (meta : Meta)
    (h : String) (hempty : alistGet meta h = some "") :
    parse_attributes s meta = parse_attributes s (alistErase meta h) ∧
    ∀ e ∈ s.ATTRIBUTE_MAP, e.header = h → e.required = true →
      (parse_attributes s meta).2 = true := by
  have htruthy : ∀ hd, truthyGet meta hd = truthyGet (alistErase meta h) hd := by
    intro hd
    by_cases hh : hd = h
    · subst hh
      simp [truthyGet, hempty, alistGet_alistErase]
    · simp [truthyGet, alistGet_alistErase, hh]
  constructor
  · exact parseAttrsGo_congr s meta (alistErase meta h) htruthy
      s.ATTRIBUTE_MAP [] false
  · intro e he hh hr
    show (parseAttrsGo s meta s.ATTRIBUTE_MAP [] false).2 = true
    rw [parseAttrsGo_error]
    simp only [Bool.false_or]
    rw [List.any_eq_true]
    refine ⟨e, he, ?_⟩
    simp [requiredMissing, hr, truthyGet, hh, hempty]

/-- Witness for C9 at a concrete input: the required header present but
empty behaves exactly like the header map with it erased. -/
theorem parse_attributes_empty_like_absent_witness :
    parse_attributes wSettings c1Meta =
      parse_attributes wSettings (alistErase c1Meta "HTTP_MAIL") ∧
    ∀ e ∈ wSettings.ATTRIBUTE_MAP, e.header = "HTTP_MAIL" →
      e.required = true → (parse_attributes wSettings c1Meta).2 = true :=
  parse_attributes_empty_like_absent wSettings c1Meta "HTTP_MAIL" rfl

/-- Unfolding equation of update_user_groups (the removal pass followed
by the addition pass). -/
theorem update_user_groups_eq (groups : List String) (username : String)
    (db : DB) :
    update_user_groups groups username db =
      addGroupsGo username groups
        { db with
          membership :=
            db.membership.filter
              (fun p => !decide (p.2 = username ∧ p.1 ∉ groups)) } := rfl

/-- C3: group reconciliation is a full sync: after update_user_groups the
user belongs to exactly the groups named in the new list — names not in
the list are removed, names in the list are added — and every name in
the list has a group in the group table (created when missing). -/
theorem update_user_groups_full_sync (groups : List String) (username : String)
    (db : DB) (g : String) :
    ((g, username) ∈ (update_user_groups groups username db).membership ↔
      g ∈ groups) ∧
    (g ∈ groups → g ∈ (update_user_groups groups username db).groups) := by
  constructor
  · rw [update_user_groups_membership]
    constructor
    · rintro (⟨_, himp⟩ | ⟨_, hg⟩)
      · exact himp rfl
      · exact hg
    · intro hg
      exact Or.inr ⟨rfl, hg⟩
  · intro hg
    rw [update_user_groups_grouptable]
    exact Or.inr hg

/-- C7: group reconciliation is idempotent: a second application with the
same list leaves the whole persistence state unchanged — the removal
pass removes nothing and the addition pass finds every group and
membership already present. -/
theorem update_user_groups_idem (groups : List String) (username : String)
    (db : DB) :
    update_user_groups groups username (update_user_groups groups username db) =
      update_user_groups groups username db := by
  have hkeep : ∀ p ∈ (update_user_groups groups username db).membership,
      (!decide (p.2 = username ∧ p.1 ∉ groups)) = true := by
    intro p hp
    rw [update_user_groups_membership] at hp
    simp only [Bool.not_eq_true', decide_eq_false_iff_not, not_and, not_not]
    intro h2
    rcases hp with ⟨_, himp⟩ | ⟨_, hg⟩
    · exact himp h2
    · exact hg
  have hfilt := List.filter_eq_self.mpr hkeep
  rw [update_user_groups_eq groups username
    (update_user_groups groups username db)]
  rw [hfilt]
  exact addGroupsGo_noop username groups _ (fun g hg =>
    ⟨(update_user_groups_grouptable groups username db g).mpr (Or.inr hg),
      (update_user_groups_membership groups username db (g, username)).mpr
        (Or.inr ⟨rfl, hg⟩)⟩)

/-- C10: the final membership relation and group table depend only on the
set of names in the supplied list: lists with the same members (any
order, any duplication) reconcile to the same state extensionally. -/
theorem update_user_groups_depends_on_set (l₁ l₂ : List String)
    (username : String) (db : DB) (hset : ∀ g, g ∈ l₁ ↔ g ∈ l₂) :
    (∀ p, p ∈ (update_user_groups l₁ username db).membership ↔
        p ∈ (update_user_groups l₂ username db).membership) ∧
    (∀ g, g ∈ (update_user_groups l₁ username db).groups ↔
        g ∈ (update_user_groups l₂ username db).groups) := by
  constructor
  · intro p
    simp only [update_user_groups_membership, hset]
  · intro g
    simp only [update_user_groups_grouptable, hset]

/-- Concrete persistence state for witnesses: one stale group the user is
in and one unrelated membership of another user. -/
def wDb : DB :=
  { groups := ["old"], membership := [("old", "alice"), ("keep", "bob")] }

/-- Witness for C10 at a concrete input: a list and its duplicated
variant reconcile to the same membership and group table. -/
theorem update_user_groups_depends_on_set_witness :
    (∀ p, p ∈ (update_user_groups ["staff"] "alice" wDb).membership ↔
        p ∈ (update_user_groups ["staff", "staff"] "alice" wDb).membership) ∧
    (∀ g, g ∈ (update_user_groups ["staff"] "alice" wDb).groups ↔
        g ∈ (update_user_groups ["staff", "staff"] "alice" wDb).groups) :=
  update_user_groups_depends_on_set ["staff"] ["staff", "staff"] "alice" wDb
    (fun g => by simp)

/-- C8: parse_group_attributes concatenates, over the configured group
headers, the tokens of a single splitting pass on the alternation of the
delimiter patterns with empty tokens discarded; the single pass only
cuts at configured delimiters (interleaving the parts with the matched
delimiters restores the input); and on the spec's example the semicolon
split of "admin;staff;;editors" is exactly admin, staff, editors. -/
theorem parse_group_attributes_spec :
    (∀ (s : Settings) (meta : Meta),
      parse_group_attributes s meta =
        (s.GROUP_ATTRIBUTES.map (fun attr =>
          (strSplitAlt s.GROUP_DELIMITERS
              (s.decode ((alistGet meta attr).getD ""))).filter
            (fun t => t != ""))).flatten) ∧
    (∀ (delims : List (List Char)) (chars : List Char),
      ∃ seps : List (List Char),
        (splitAlt delims chars).length = seps.length + 1 ∧
        (∀ d ∈ seps, d ∈ delims ∧ d ≠ []) ∧
        interleave (splitAlt delims chars) seps = chars) ∧
    parse_group_attributes wSettings c8Meta = ["admin", "staff", "editors"] := by
  refine ⟨?_, ?_, ?_⟩
  · intro s meta
    exact parseGroupsGo_eq_join s meta s.GROUP_ATTRIBUTES
  · intro delims chars
    obtain ⟨seps, h1, h2, h3⟩ :=
      splitAltGo_reconstruct delims chars.length [] chars
    exact ⟨seps, h1, h2, by simpa using h3⟩
  · rfl

/-- C2: when the remote-user header is present and non-empty, the fast
path does not apply and parsing reports a missing required element,
process_request raises the validation error carrying the partial
attribute map, and the state it leaves behind has that partial map
already written to the session under "shib" (the write precedes the
raise and is not rolled back); user slot and database are untouched. -/
theorem process_request_validation_error (env : Env) (req : Request) (db : DB)
    (current : User) (hu : req.user = some current) (raw : String)
    (hh : alistGet req.META env.header = some raw)
    (hne : env.settings.decode raw ≠ "")
    (hfast : ¬(current.is_authenticated = true ∧
      current.username = env.clean_username (env.settings.decode raw)))
    (herr : (parse_attributes env.settings req.META).2 = true) :
    process_request env req db =
      Result.validationError (parse_attributes env.settings req.META).1
        { req with
          session := alistSet req.session "shib"
            (parse_attributes env.settings req.META).1 } db := by
  simp only [process_request, hu, hh]
  rw [if_neg hne, if_neg hfast, if_pos herr]

/-- C4: with the remote-user header absent, or present but empty after
optional percent-decoding, process_request returns normally and changes
nothing: the request (current-user slot and session included) and the
database come back untouched. -/
theorem process_request_no_identity (env : Env) (req : Request) (db : DB)
    (current : User) (hu : req.user = some current)
    (hnone : alistGet req.META env.header = none ∨
      ∃ raw, alistGet req.META env.header = some raw ∧
        env.settings.decode raw = "") :
    process_request env req db = Result.ok req db := by
  rcases hnone with h | ⟨raw, hraw, hdec⟩
  · simp only [process_request, hu, h]
  · simp only [process_request, hu, hraw]
    rw [if_pos hdec]

/-- C5: when the current user is already authenticated under the decoded
and cleaned header value, process_request returns with request and
database untouched — the session "shib" key is not rewritten — and the
result is the same under any replacement of the attribute map, so
attribute parsing cannot have been consulted. -/
theorem process_request_fast_path (env : Env) (req : Request) (db : DB)
    (current : User) (hu : req.user = some current) (raw : String)
    (hh : alistGet req.META env.header = some raw)
    (hne : env.settings.decode raw ≠ "")
    (hauth : current.is_authenticated = true)
    (hname : current.username = env.clean_username (env.settings.decode raw)) :
    process_request env req db = Result.ok req db ∧
    ∀ amap : List AttrEntry,
      process_request
          { env with settings := { env.settings with ATTRIBUTE_MAP := amap } }
          req db = Result.ok req db := by
  constructor
  · simp only [process_request, hu, hh]
    rw [if_neg hne, if_pos ⟨hauth, hname⟩]
  · intro amap
    have hh' : alistGet req.META
        ({ env with
            settings := { env.settings with ATTRIBUTE_MAP := amap } } : Env).header =
        some raw := hh
    simp only [process_request, hu, hh']
    split
    · rfl
    · split
      · rfl
      · rename_i hcon
        exact absurd ⟨hauth, hname⟩ hcon

/-- C6 (amended): when parsing succeeds and the authentication backend
returns no match, process_request raises nothing, performs no login,
leaves the current-user slot and the database untouched, and its only
session change is the unconditional write of the parsed attribute map
under "shib" made before the backend was consulted. -/
theorem process_request_no_match (env : Env) (req : Request) (db : DB)
    (current : User) (hu : req.user = some current) (raw : String)
    (hh : alistGet req.META env.header = some raw)
    (hne : env.settings.decode raw ≠ "")
    (hfast : ¬(current.is_authenticated = true ∧
      current.username = env.clean_username (env.settings.decode raw)))
    (hok : (parse_attributes env.settings req.META).2 = false)
    (hnm : env.authenticate (env.settings.decode raw)
      (parse_attributes env.settings req.META).1 = none) :
    process_request env req db =
      Result.ok
        { req with
          session := alistSet req.session "shib"
            (parse_attributes env.settings req.META).1 } db := by
  simp only [process_request, hu, hh]
  rw [if_neg hne, if_neg hfast, if_neg (by simp [hok])]
  simp only [hnm]

/-- Concrete environment for witnesses: the concrete settings, the
REMOTE_USER header, an identity clean_username, a backend that rejects
every credential and a login that leaves the session as it is. -/
def wEnv : Env :=
  { settings := wSettings, header := "HTTP_REMOTE_USER", clean_username := id,
    authenticate := fun _ _ => none, loginSession := fun sess _ => sess }

/-- Anonymous current user, as AuthenticationMiddleware leaves it before
any login. -/
def anonUser : User := { username := "", is_authenticated := false }

/-- Request whose headers assert an identity but miss the required mail
attribute. -/
def c2Req : Request :=
  { META := [("HTTP_REMOTE_USER", "alice"), ("HTTP_CN", "Jane Doe")],
    user := some anonUser, session := [] }

/-- Witness for C2 at a concrete input: the raised validation error
carries the partial map (optional cn only) and the session already holds
it under "shib". -/
theorem process_request_validation_error_witness :
    process_request wEnv c2Req wDb =
      Result.validationError (parse_attributes wEnv.settings c2Req.META).1
        { c2Req with
          session := alistSet c2Req.session "shib"
            (parse_attributes wEnv.settings c2Req.META).1 } wDb :=
  process_request_validation_error wEnv c2Req wDb anonUser rfl "alice" rfl
    (by decide) (by decide) rfl

/-- Request carrying no remote-user header at all. -/
def c4Req : Request :=
  { META := [("HTTP_CN", "Jane")], user := some anonUser,
    session := [("shib", [("cn", "old")])] }

/-- Witness for C4 at a concrete input: header absent, everything comes
back untouched. -/
theorem process_request_no_identity_witness :
    process_request wEnv c4Req wDb = Result.ok c4Req wDb :=
  process_request_no_identity wEnv c4Req wDb anonUser rfl (Or.inl rfl)

/-- Current user already logged in as alice. -/
def aliceUser : User := { username := "alice", is_authenticated := true }

/-- Request already authenticated as the asserted identity, with a stale
"shib" session value that must survive. -/
def c5Req : Request :=
  { META := [("HTTP_REMOTE_USER", "alice"), ("HTTP_CN", "Jane")],
    user := some aliceUser, session := [("shib", [("cn", "old")])] }

/-- Witness for C5 at a concrete input: the fast path leaves the stale
session alone whatever the attribute map. -/
theorem process_request_fast_path_witness :
    process_request wEnv c5Req wDb = Result.ok c5Req wDb ∧
    ∀ amap : List AttrEntry,
      process_request
          { wEnv with settings := { wEnv.settings with ATTRIBUTE_MAP := amap } }
          c5Req wDb = Result.ok c5Req wDb :=
  process_request_fast_path wEnv c5Req wDb aliceUser rfl "alice" rfl
    (by decide) rfl rfl

/-- Request with a complete attribute assertion for a user the backend
will reject. -/
def c6Req : Request :=
  { META := [("HTTP_REMOTE_USER", "alice"), ("HTTP_MAIL", "jane@example.org"),
      ("HTTP_CN", "Jane")],
    user := some anonUser, session := [] }

/-- Session state c6Req ends in: the parsed attribute map stored under
"shib". -/
def c6Req' : Request :=
  { c6Req with
    session := [("shib", [("mail", "jane@example.org"), ("cn", "Jane")])] }

/-- C6 counterexample to the claim as stated: with parsing successful and
the backend returning no match, process_request returns normally with
the user slot unchanged — but the session HAS changed: the "shib" key
was written before the backend was consulted. -/
theorem process_request_no_match_session_changed :
    process_request wEnv c6Req wDb = Result.ok c6Req' wDb ∧
    c6Req'.session ≠ c6Req.session ∧
    c6Req'.user = c6Req.user :=
  ⟨rfl, by decide, rfl⟩

/-- Witness for C6 (amended) at a concrete input: backend no-match leaves
everything unchanged except the "shib" session write. -/
theorem process_request_no_match_witness :
    process_request wEnv c6Req wDb =
      Result.ok
        { c6Req with
          session := alistSet c6Req.session "shib"
            (parse_attributes wEnv.settings c6Req.META).1 } wDb :=
  process_request_no_match wEnv c6Req wDb anonUser rfl "alice" rfl
    (by decide) (by decide) rfl rfl
